import Mathlib

/-!
Verification development for the meshlet encoding/decoding pipeline of the
`tort` renderer.

Modelling conventions, used throughout:

* `f32` values are modelled as exact rationals (`ℚ`); every floating-point
  arithmetic operation of the source is modelled by the corresponding exact
  operation on `ℚ`.  Division by zero in `ℚ` yields `0` (the Lean
  convention); where a theorem touches such a case this is stated in its
  documentation.
* Machine integers (`u32`, `i32`) are modelled as `ℕ` / `ℤ` with explicit
  reductions modulo `2 ^ 32`.  Shift amounts are reduced modulo 32 and
  wrapping subtraction is explicit, which is the defined behaviour of the
  release-mode Rust the shaders and the asset builder are compiled with
  (debug builds panic at the same spots; either way the affected
  computations do not produce the values the specification asks for).
* Fallible operations (`bitstream_io`'s `BitWriter::write`, which rejects a
  value that does not fit the requested bit count) return `Except`.
-/

/-- Wrap an unbounded integer into the `i32` range, i.e. two's-complement
reduction modulo `2 ^ 32` into `[-2^31, 2^31)`. -/
def wrapI32 (z : ℤ) : ℤ := (z + 2 ^ 31) % 2 ^ 32 - 2 ^ 31

/-- Left shift of a `u32` value: the shift amount is reduced modulo 32 and
the result is truncated to 32 bits (Rust release semantics, and the
behaviour of GPU shift instructions). -/
def shl32 (a s : ℕ) : ℕ := (a <<< (s % 32)) % 2 ^ 32

/-- Wrapping subtraction on `u32` (`a as u32 - b`, release semantics). -/
def wsub32 (a b : ℕ) : ℕ := (a % 2 ^ 32 + (2 ^ 32 - b % 2 ^ 32)) % 2 ^ 32

/-- Embedding of `tort_math::dequantize_unorm` (crates/tort_math/src/lib.rs):
`scale = ((1i32 << n) - 1i32) as f32; value as f32 / scale`.  The `i32`
shift-and-subtract is modelled exactly: `1 << k = 2 ^ k` with the shift
amount masked modulo 32, and the whole expression wrapped to `i32` (the
source wraps after the shift and again after the subtraction; reduction
modulo `2 ^ 32` commutes with subtraction, so one wrap of the exact value
is the same).  The `f32` arithmetic is modelled over `ℚ`.
For `n = 32` the computed scale is `0` and the division is a division by
zero (`0` in this model, a non-finite value in `f32`). -/
def dequantize_unorm (value : ℕ) (n : ℕ) : ℚ :=
  let scale : ℚ := ((wrapI32 (2 ^ (n % 32) - 1) : ℤ) : ℚ)
  (value : ℚ) / scale

/-- Modelled from the spec: `meshopt::quantize_unorm` is provided by the
external `meshopt` collaborator crate and is not part of this repository's
sources.  Per the spec (§4.1): clamp the input to `[0, 1]` and round to the
nearest code with scale `2 ^ bits - 1`. -/
def quantize_unorm (v : ℚ) (n : ℕ) : ℕ :=
  let scale : ℚ := (2 : ℚ) ^ n - 1
  let v := if 0 ≤ v then v else 0
  let v := if v ≤ 1 then v else 1
  (⌊v * scale + 1 / 2⌋).toNat

structure Vec3Q where
  x : ℚ
  y : ℚ
  z : ℚ
deriving DecidableEq

instance : Inhabited Vec3Q := ⟨⟨0, 0, 0⟩⟩

structure Vec2Q where
  x : ℚ
  y : ℚ
deriving DecidableEq

instance : Inhabited Vec2Q := ⟨⟨0, 0⟩⟩

/-- Embedding of `tort_math::AABB` (crates/tort_math/src/aabb.rs). -/
structure AABB where
  min : Vec3Q
  max : Vec3Q
deriving DecidableEq

/-- Embedding of `AABB::range` (crates/tort_math/src/aabb.rs, lines 18-23).
The source reads `(max.x - min.x).max(max.y - min.y).max(max.z - max.z)`;
note that the last operand subtracts `max.z` from itself. -/
def AABB.range (a : AABB) : ℚ :=
  Max.max (Max.max (a.max.x - a.min.x) (a.max.y - a.min.y)) (a.max.z - a.max.z)

/-- Largest finite `f32` value (`f32::MAX`), exactly. -/
def f32MAX : ℚ := (2 ^ 24 - 1) * 2 ^ 104

/-- Smallest finite `f32` value (`f32::MIN = -f32::MAX`). -/
def f32MIN : ℚ := -f32MAX

/-- Loop body of `impl From<Iterator> for AABB` (crates/tort_math/src/aabb.rs,
lines 31-39): component-wise `min`/`max` accumulation. -/
def aabbStep (acc : AABB) (v : Vec3Q) : AABB :=
  ⟨⟨Min.min acc.min.x v.x, Min.min acc.min.y v.y, Min.min acc.min.z v.z⟩,
   ⟨Max.max acc.max.x v.x, Max.max acc.max.y v.y, Max.max acc.max.z v.z⟩⟩

/-- Embedding of `impl From<Iterator> for AABB` (crates/tort_math/src/aabb.rs):
fold component-wise `min`/`max` over the points, starting from
`Vec3::splat(f32::MAX)` / `Vec3::splat(f32::MIN)`. -/
def AABB.fromPoints (l : List Vec3Q) : AABB :=
  l.foldl aabbStep ⟨⟨f32MAX, f32MAX, f32MAX⟩, ⟨f32MIN, f32MIN, f32MIN⟩⟩

/-- Embedding of the per-meshlet vertex record
(`tort_asset_builder::mesh::Vertex`). -/
structure VertexQ where
  position : Vec3Q
  texCoord : Vec2Q
  normal : Vec3Q
deriving DecidableEq

instance : Inhabited VertexQ := ⟨⟨default, default, default⟩⟩

/-- Input view of one meshlet as returned by the external
`meshopt::build_meshlets` collaborator: `vertices` are indices into the
mesh's vertex buffer, `triangles` are meshlet-local vertex indices,
flattened three per triangle. -/
structure MeshletIn where
  vertices : List ℕ
  triangles : List ℕ
deriving DecidableEq

/-- AABB of a meshlet, as computed both in `get_bits_per_vertex`
(crates/tort_asset_builder/src/mesh/util.rs, lines 19-24) and in
`build_from_mesh` (simple_mesh.rs, lines 112-116): the bounding box of the
positions of the meshlet's vertices. -/
def meshletAABB (vertices : List VertexQ) (m : MeshletIn) : AABB :=
  AABB.fromPoints (m.vertices.map fun v => (vertices.getD v default).position)

/-- The three divisors `(max - min)` by which the encoder
(simple_mesh.rs, lines 174-176) and the bit-width search (util.rs, lines
41-43) divide each vertex's offset from the AABB minimum.  Neither site
guards against a zero divisor. -/
def normDenoms (aabb : AABB) : ℚ × ℚ × ℚ :=
  (aabb.max.x - aabb.min.x, aabb.max.y - aabb.min.y, aabb.max.z - aabb.min.z)

/-- Body of the per-bit-width error scan of `get_bits_per_vertex`
(util.rs, lines 34-60): fold over the meshlet's vertices, accumulating per
axis the maximum of
`|dequantize(quantize((p - min)/(max - min), bits), bits) - (p - min)/(max - min)| / cluster_range`,
starting from `(0, 0, 0)`. -/
def axisErrors (vertices : List VertexQ) (mverts : List ℕ) (aabb : AABB)
    (clusterRange : ℚ) (bits : ℕ) : ℚ × ℚ × ℚ :=
  mverts.foldl
    (fun acc vi =>
      let p := (vertices.getD vi default).position
      let x := (p.x - aabb.min.x) / (normDenoms aabb).1
      let y := (p.y - aabb.min.y) / (normDenoms aabb).2.1
      let z := (p.z - aabb.min.z) / (normDenoms aabb).2.2
      let ex := |dequantize_unorm (quantize_unorm x bits) bits - x| / clusterRange
      let ey := |dequantize_unorm (quantize_unorm y bits) bits - y| / clusterRange
      let ez := |dequantize_unorm (quantize_unorm z bits) bits - z| / clusterRange
      (Max.max acc.1 ex, Max.max acc.2.1 ey, Max.max acc.2.2 ez))
    (0, 0, 0)

/-- The `for bits in BITS_RANGE` loop of `get_bits_per_vertex` (util.rs,
lines 33-77): for each candidate width, an axis whose maximal error is
below the threshold and whose width is still the sentinel 32 receives the
candidate; the loop breaks once all three axes are resolved. -/
def gbpvGo (vertices : List VertexQ) (mverts : List ℕ) (aabb : AABB)
    (clusterRange : ℚ) (err : ℚ) : List ℕ → ℕ × ℕ × ℕ → ℕ × ℕ × ℕ
  | [], acc => acc
  | bits :: rest, (nx, ny, nz) =>
      let e := axisErrors vertices mverts aabb clusterRange bits
      let nx := if e.1 < err ∧ nx = 32 then bits else nx
      let ny := if e.2.1 < err ∧ ny = 32 then bits else ny
      let nz := if e.2.2 < err ∧ nz = 32 then bits else nz
      if nx ≠ 32 ∧ ny ≠ 32 ∧ nz ≠ 32 then (nx, ny, nz)
      else gbpvGo vertices mverts aabb clusterRange err rest (nx, ny, nz)

/-- Embedding of `get_bits_per_vertex` (util.rs, lines 14-84).  The
`SimpleMeshBuildSettings` argument is reduced to its only field, the error
threshold.  `BITS_RANGE` is `4..31`, i.e. `List.range' 4 27`; the three
widths start at the sentinel value 32. -/
def get_bits_per_vertex (vertices : List VertexQ) (m : MeshletIn) (err : ℚ) : ℕ × ℕ × ℕ :=
  let aabb := meshletAABB vertices m
  gbpvGo vertices m.vertices aabb aabb.range err (List.range' 4 27) (32, 32, 32)

/-- Claim-side characterisation: `n` is either the sentinel 32 with no
candidate width in `[lo, lo + count)` bringing the error below the
threshold, or the least width in that interval that does. -/
def IsLeastWidthIn (lo count : ℕ) (err : ℕ → ℚ) (eps : ℚ) (n : ℕ) : Prop :=
  (n = 32 ∧ ∀ b, lo ≤ b → b < lo + count → ¬ err b < eps) ∨
  (lo ≤ n ∧ n < lo + count ∧ err n < eps ∧ ∀ b, lo ≤ b → b < n → ¬ err b < eps)

/-- Single-axis update step of the search loop. -/
def gbpvUpd (err : ℕ → ℚ) (eps : ℚ) (n b : ℕ) : ℕ :=
  if err b < eps ∧ n = 32 then b else n

/-- Example mesh vertex buffer used by concrete witnesses: two vertices
spanning the unit cube, with zero texture coordinates and normals (all
values exactly representable in `f32`). -/
def exVerts : List VertexQ :=
  [⟨⟨0, 0, 0⟩, ⟨0, 0⟩, ⟨0, 0, 0⟩⟩, ⟨⟨1, 1, 1⟩, ⟨0, 0⟩, ⟨0, 0, 0⟩⟩]

/-- Example meshlet over `exVerts`: both vertices, one triangle. -/
def exMeshlet : MeshletIn := ⟨[0, 1], [0, 1, 1]⟩

/-- Model of `bitstream_io::BitWriter<_, LittleEndian>`: the stream is the
natural number whose binary digits are the bits written so far,
least-significant-bit first (bit `p` of `stream` is the `p`-th bit of the
output: byte `p / 8`, bit `p % 8`, matching the little-endian bit order of
the writer and, after the byte buffer is reinterpreted as `u32` words on a
little-endian machine, word `p / 32`, bit `p % 32`), together with the
number of bits written so far. -/
structure BW where
  stream : ℕ
  len : ℕ
deriving DecidableEq

/-- Fresh writer over an empty buffer. -/
def BW.init : BW := ⟨0, 0⟩

/-- Model of `BitWriter::write(bits, value)`: appends the low `w` bits of `v`;
`bitstream_io` returns an error when the value does not fit in `w` bits. -/
def BW.write (bw : BW) (w v : ℕ) : Except String BW :=
  if v < 2 ^ w then .ok ⟨bw.stream + v * 2 ^ bw.len, bw.len + w⟩
  else .error "excessive value for bits written"

/-- Sequence of `write` calls, stopping at the first failure. -/
def writeFields : BW → List (ℕ × ℕ) → Except String BW
  | bw, [] => .ok bw
  | bw, f :: rest =>
      match bw.write f.1 f.2 with
      | .ok bw2 => writeFields bw2 rest
      | .error e => .error e

/-- Model of `BitWriter::byte_align`: pad with zero bits to the next byte boundary. -/
def BW.byteAlign (bw : BW) : BW := ⟨bw.stream, (bw.len + 7) / 8 * 8⟩

/-- Zero-padding of a byte count to a multiple of 4
(simple_mesh.rs, lines 217-219). -/
def padTo4 (n : ℕ) : ℕ := n + (4 - n % 4) % 4

/-- Boolean success test for `Except`. -/
def okB {α : Type} : Except String α → Bool
  | .ok _ => true
  | .error _ => false

/-- Bit length of an `Except`-wrapped writer (0 on error). -/
def bwLenOf : Except String BW → ℕ
  | .ok bw => bw.len
  | .error _ => 0

/-- Model of `BitReader` (crates/tort_shaders/src/utils/bit_reader.rs):
a `u32` word buffer and a bit offset.  The unchecked out-of-bounds access
of the source (undefined behaviour) is modelled as reading 0. -/
structure BitReaderM where
  buffer : List ℕ
  offset : ℕ

/-- Embedding of `BitReader::read_bits_unchecked` (bit_reader.rs, lines
13-25): split the offset into word index and bit index, advance the
offset, shift the current word down, OR in the next word's low bits when
the read straddles a word boundary, and mask to the requested width.  The
mask is the source's `(1 << num_bits) - 1` computed in `u32`, i.e.
`shl32 1 numBits - 1`, which is `0` when `numBits = 32`. -/
def BitReaderM.read_bits_unchecked (r : BitReaderM) (numBits : ℕ) : ℕ × BitReaderM :=
  let bitIdx := r.offset % 32
  let idx := r.offset / 32
  let r2 : BitReaderM := ⟨r.buffer, r.offset + numBits⟩
  let value := r.buffer.getD idx 0 >>> bitIdx
  let value := if 32 < bitIdx + numBits
    then value ||| shl32 (r.buffer.getD (idx + 1) 0) (32 - bitIdx)
    else value
  (value &&& (shl32 1 numBits - 1), r2)

/-- Decoded meshlet header (`Meshlet` in crates/tort_shaders/src/geometry/mod.rs,
lines 38-55).  The six AABB fields are kept as the raw 32-bit patterns the
reads return; the shader reinterprets them via `f32::from_bits`. -/
structure MeshletDec where
  minXbits : ℕ
  minYbits : ℕ
  minZbits : ℕ
  maxXbits : ℕ
  maxYbits : ℕ
  maxZbits : ℕ
  numBitsX : ℕ
  numBitsY : ℕ
  numBitsZ : ℕ
  numBitsTexX : ℕ
  numBitsTexY : ℕ
  numBitsNormal : ℕ
  numBitsIdx : ℕ
  numVertices : ℕ
  numPrimitives : ℕ
  dataOffset : ℕ
deriving DecidableEq

/-- Embedding of `Meshlet::from_bits` (geometry/mod.rs, lines 58-81):
sixteen sequential unchecked reads in header order, the width and count
fields incremented by one.  Returns the decoded header and the reader's
final state. -/
def meshletFromBits (r0 : BitReaderM) : MeshletDec × BitReaderM :=
  let (v1, r1) := r0.read_bits_unchecked 32
  let (v2, r2) := r1.read_bits_unchecked 32
  let (v3, r3) := r2.read_bits_unchecked 32
  let (v4, r4) := r3.read_bits_unchecked 32
  let (v5, r5) := r4.read_bits_unchecked 32
  let (v6, r6) := r5.read_bits_unchecked 32
  let (v7, r7) := r6.read_bits_unchecked 5
  let (v8, r8) := r7.read_bits_unchecked 5
  let (v9, r9) := r8.read_bits_unchecked 5
  let (v10, r10) := r9.read_bits_unchecked 5
  let (v11, r11) := r10.read_bits_unchecked 5
  let (v12, r12) := r11.read_bits_unchecked 3
  let (v13, r13) := r12.read_bits_unchecked 5
  let (v14, r14) := r13.read_bits_unchecked 6
  let (v15, r15) := r14.read_bits_unchecked 7
  let (v16, r16) := r15.read_bits_unchecked 32
  (⟨v1, v2, v3, v4, v5, v6, v7 + 1, v8 + 1, v9 + 1, v10 + 1, v11 + 1,
    v12 + 1, v13 + 1, v14 + 1, v15 + 1, v16⟩, r16)

/-- Embedding of `get_bits_per_index` (util.rs, lines 86-89):
`ceil(log2(num_vertices))`.  The source computes this through `f32`
`log2().ceil()`; for the vertex counts the encoder feeds it
(`1 ≤ n ≤ 64`) the `f32` computation is exact and equals `Nat.clog 2 n`. -/
def get_bits_per_index (numVertices : ℕ) : ℕ := Nat.clog 2 numVertices

/-- Per-meshlet size record of the encoder's first pass (simple_mesh.rs,
lines 107-120): chosen position widths, index width, and meshlet AABB. -/
def meshletSizes (vertices : List VertexQ) (eps : ℚ) (m : MeshletIn) :
    (ℕ × ℕ × ℕ) × ℕ × AABB :=
  (get_bits_per_vertex vertices m eps, get_bits_per_index m.vertices.length,
    meshletAABB vertices m)

/-- Per-vertex payload bit cost (simple_mesh.rs, lines 153-158): the three
position widths plus `32 + 32` texcoord bits plus `8 * 3` normal bits. -/
def perVertexBits (vs : ℕ × ℕ × ℕ) : ℕ := vs.1 + vs.2.1 + vs.2.2 + 32 + 32 + 8 * 3

/-- Exact payload bit size of one meshlet (simple_mesh.rs, lines 153-160):
per-vertex cost times vertex count plus index width times flattened
triangle-index count. -/
def payloadBits (vertices : List VertexQ) (eps : ℚ) (m : MeshletIn) : ℕ :=
  perVertexBits (meshletSizes vertices eps m).1 * m.vertices.length +
    (meshletSizes vertices eps m).2.1 * m.triangles.length

/-- Field list of one meshlet header, in source order with source widths
(simple_mesh.rs, lines 130-151): six AABB `f32` bit patterns, the three
position widths minus one, the two fixed 32-bit texcoord widths minus one,
the fixed 8-bit normal width minus one, the index width minus one, the
vertex count minus one (6 bits), the triangle count minus one (7 bits) and
the running data offset as `u32`.  `fb` stands for `f32::to_bits`
(standard library, external to this repository; every theorem below holds
for an arbitrary such function).  Subtraction and the length casts are
wrapping `u32` operations. -/
def headerFields (fb : ℚ → ℕ) (aabb : AABB) (vs : ℕ × ℕ × ℕ)
    (indexSize numVertices numTriangles offset : ℕ) : List (ℕ × ℕ) :=
  [(32, fb aabb.min.x), (32, fb aabb.min.y), (32, fb aabb.min.z),
   (32, fb aabb.max.x), (32, fb aabb.max.y), (32, fb aabb.max.z),
   (5, wsub32 vs.1 1), (5, wsub32 vs.2.1 1), (5, wsub32 vs.2.2 1),
   (5, wsub32 32 1), (5, wsub32 32 1),
   (3, wsub32 8 1),
   (5, wsub32 indexSize 1),
   (6, wsub32 numVertices 1),
   (7, wsub32 numTriangles 1),
   (32, offset % 2 ^ 32)]

/-- One header write of the encoder's header pass
(simple_mesh.rs, lines 122-151). -/
def writeHeader (fb : ℚ → ℕ) (vertices : List VertexQ) (eps : ℚ) (m : MeshletIn)
    (offset : ℕ) (bw : BW) : Except String BW :=
  writeFields bw
    (headerFields fb (meshletSizes vertices eps m).2.2 (meshletSizes vertices eps m).1
      (meshletSizes vertices eps m).2.1 m.vertices.length (m.triangles.length / 3) offset)

/-- Encoder size constant `MAX_VERTICES` (simple_mesh.rs, line 86), passed
to the external `meshopt::build_meshlets` partitioner. -/
def MAX_VERTICES : ℕ := 64

/-- Encoder size constant `MAX_TRIANGLES` (simple_mesh.rs, line 87), passed
to the external `meshopt::build_meshlets` partitioner. -/
def MAX_TRIANGLES : ℕ := 124

/-- Per-header bit count the encoder uses to size the header region
(simple_mesh.rs, line 105): `mem::size_of::<AABB>() * 8 + 78`, where
`AABB` is a `repr(C)` struct of six `f32` fields, 24 bytes. -/
def encoderPerHeaderBits : ℕ := 24 * 8 + 78

/-- Header stride hardcoded in the GPU decoder (geometry/mod.rs, line 98):
`BitReader::new(mesh_data, wgid.x as usize * 270)`. -/
def decoderHeaderStride : ℕ := 270

/-- Encoder header pass (simple_mesh.rs, lines 105, 122-161): write each
meshlet's header while accumulating the running data offset. -/
def headersPass (fb : ℚ → ℕ) (vertices : List VertexQ) (eps : ℚ) :
    List MeshletIn → ℕ → BW → Except String BW
  | [], _, bw => .ok bw
  | m :: rest, offset, bw =>
      match writeHeader fb vertices eps m offset bw with
      | .ok bw2 => headersPass fb vertices eps rest (offset + payloadBits vertices eps m) bw2
      | .error e => .error e

/-- Field list of one vertex's payload record (simple_mesh.rs, lines
171-207): positions normalized against the meshlet AABB (dividing by the
unguarded `normDenoms` extents) and quantized at the chosen widths,
texcoords quantized at the fixed 32-bit width, normal components at the
fixed 8-bit width. -/
def vertexFields (vs : ℕ × ℕ × ℕ) (aabb : AABB) (vertex : VertexQ) : List (ℕ × ℕ) :=
  let x := (vertex.position.x - aabb.min.x) / (normDenoms aabb).1
  let y := (vertex.position.y - aabb.min.y) / (normDenoms aabb).2.1
  let z := (vertex.position.z - aabb.min.z) / (normDenoms aabb).2.2
  [(vs.1, quantize_unorm x vs.1),
   (vs.2.1, quantize_unorm y vs.2.1),
   (vs.2.2, quantize_unorm z vs.2.2),
   (32, quantize_unorm vertex.texCoord.x 32), (32, quantize_unorm vertex.texCoord.y 32),
   (8, quantize_unorm vertex.normal.x 8), (8, quantize_unorm vertex.normal.y 8),
   (8, quantize_unorm vertex.normal.z 8)]

/-- Payload field list of one meshlet (simple_mesh.rs, lines 163-212): all
vertex records at the meshlet's sizes, then every flattened triangle index
at the meshlet's index width. -/
def meshletPayloadFields (vertices : List VertexQ) (eps : ℚ) (m : MeshletIn) : List (ℕ × ℕ) :=
  (m.vertices.map fun vi =>
    vertexFields (meshletSizes vertices eps m).1 (meshletSizes vertices eps m).2.2
      (vertices.getD vi default)).flatten ++
  m.triangles.map fun i => ((meshletSizes vertices eps m).2.1, i)

/-- Encoder payload pass (simple_mesh.rs, lines 163-212). -/
def payloadPass (vertices : List VertexQ) (eps : ℚ) :
    List MeshletIn → BW → Except String BW
  | [], bw => .ok bw
  | m :: rest, bw =>
      match writeFields bw (meshletPayloadFields vertices eps m) with
      | .ok bw2 => payloadPass vertices eps rest bw2
      | .error e => .error e

/-- Embedding of `build_from_mesh` (simple_mesh.rs, lines 90-222), taking
the meshlet list returned by the external `meshopt::build_meshlets`
partitioner as input: header pass starting the running offset at the bit
size of the whole header region, then payload pass, then byte alignment
and zero padding of the byte buffer to a multiple of 4.  Returns the bit
stream and the byte length of the buffer.  The source precomputes the
per-meshlet size records once into a vector (lines 107-120) and indexes it
from both passes; the passes here recompute the same pure `meshletSizes`
values per meshlet, which is observationally identical. -/
def build_from_mesh (fb : ℚ → ℕ) (vertices : List VertexQ) (eps : ℚ)
    (ms : List MeshletIn) : Except String (ℕ × ℕ) :=
  match headersPass fb vertices eps ms (ms.length * encoderPerHeaderBits) BW.init with
  | .error e => .error e
  | .ok bw =>
      match payloadPass vertices eps ms bw with
      | .error e => .error e
      | .ok bw2 => .ok ((BW.byteAlign bw2).stream, padTo4 ((BW.byteAlign bw2).len / 8))

/-- The running data-offset values the header pass feeds into each
header's 32-bit offset field (simple_mesh.rs, lines 105, 151-160): the
projection of `headersPass` keeping just the `data_offset` accumulator and
the `as u32` cast applied at each write. -/
def writtenOffsetList (vertices : List VertexQ) (eps : ℚ) :
    List MeshletIn → ℕ → List ℕ
  | [], _ => []
  | m :: rest, offset =>
      offset % 2 ^ 32 ::
        writtenOffsetList vertices eps rest (offset + payloadBits vertices eps m)

/-- Meshlet over `exVerts` with 125 triangles (exceeding the 124-triangle
cap), all local indices 0. -/
def exMeshlet125 : MeshletIn := ⟨[0, 1], List.replicate 375 0⟩

/-- Meshlet with 65 vertex slots (exceeding the 64-vertex cap). -/
def exMeshlet65 : MeshletIn := ⟨List.replicate 65 0, [0, 0, 0]⟩

/-- Vertex buffer whose positions all share the x coordinate 0 (zero
x-extent, the degenerate case of C8). -/
def exVertsDegX : List VertexQ :=
  [⟨⟨0, 0, 0⟩, ⟨0, 0⟩, ⟨0, 0, 0⟩⟩, ⟨⟨0, 1, 2⟩, ⟨0, 0⟩, ⟨0, 0, 0⟩⟩]

/-- Width/value pairs of the repository's `read_unchecked` unit test
(bit_reader.rs, lines 40-55): widths `2..20`, values `(1 << i) - 2`. -/
def c3TestFields : List (ℕ × ℕ) := (List.range' 2 18).map fun i => (i, 2 ^ i - 2)

/-- View of a bit stream as a buffer of `nw` little-endian 32-bit words:
the reinterpretation of the encoder's byte buffer as the `&[u32]` slice
the reader is given (bit_reader.rs, line 57; the GPU storage buffer in
geometry/mod.rs). -/
def wordsOf (stream nw : ℕ) : List ℕ :=
  (List.range nw).map fun j => (stream >>> (32 * j)) % 2 ^ 32

/-- The unit test's word buffer (bit_reader.rs, lines 40-57): the written
stream, byte aligned and zero padded to a multiple of 4 bytes, then
reinterpreted as little-endian `u32` words. -/
def c3TestWords : List ℕ :=
  match writeFields BW.init c3TestFields with
  | .ok bw => wordsOf (BW.byteAlign bw).stream (padTo4 ((BW.byteAlign bw).len / 8) / 4)
  | .error _ => []

/-- Sequential unchecked reads of the given widths, collecting the values
(the read loop of the unit test, bit_reader.rs, lines 59-64). -/
def readValues (r : BitReaderM) : List ℕ → List ℕ
  | [] => []
  | w :: rest => (r.read_bits_unchecked w).1 :: readValues (r.read_bits_unchecked w).2 rest

lemma wrapI32_eq_self {z : ℤ} (h0 : -(2 ^ 31) ≤ z) (h1 : z < 2 ^ 31) :
    wrapI32 z = z := by
  unfold wrapI32
  have : (z + 2 ^ 31) % 2 ^ 32 = z + 2 ^ 31 := Int.emod_eq_of_lt (by omega) (by omega)
  omega

/-- For `n ≤ 31` the scale computed by `dequantize_unorm` is `2 ^ n - 1`. -/
lemma dequantize_unorm_eq {v n : ℕ} (hn : n ≤ 31) :
    dequantize_unorm v n = (v : ℚ) / ((2 : ℚ) ^ n - 1) := by
  unfold dequantize_unorm
  have hmod : n % 32 = n := Nat.mod_eq_of_lt (by omega)
  have hlt : (2 : ℤ) ^ n ≤ 2 ^ 31 := pow_le_pow_right₀ (by norm_num) hn
  have hpos : (0 : ℤ) < 2 ^ n := by positivity
  have hwrap : wrapI32 (2 ^ (n % 32) - 1) = 2 ^ n - 1 := by
    rw [hmod]
    exact wrapI32_eq_self (by omega) (by omega)
  rw [hwrap]
  push_cast
  ring_nf

lemma quantize_unorm_of_mem {v : ℚ} {n : ℕ} (h0 : 0 ≤ v) (h1 : v ≤ 1) :
    quantize_unorm v n = (⌊v * ((2 : ℚ) ^ n - 1) + 1 / 2⌋).toNat := by
  unfold quantize_unorm
  simp only [if_pos h0, if_pos h1]

/-- C2: for bit widths `b ∈ [4, 31]` and `v ∈ [0, 1]` the round trip
`dequantize_unorm (quantize_unorm v b) b` is within `1 / (2 ^ b - 1)` of
`v` (second conjunct).  At the claimed upper width `b = 32`, however, the
`i32` scale computation of `dequantize_unorm` wraps to `0` (in the release
semantics modelled here; debug builds panic on the same overflow), the
division is a division by zero, and the round trip of `v = 1` returns `0`,
an error of `1`, far outside the claimed bound (first conjunct). -/
theorem quantize_roundtrip_c2 :
    (dequantize_unorm (quantize_unorm 1 32) 32 = 0 ∧
      ¬ |dequantize_unorm (quantize_unorm 1 32) 32 - 1| ≤ 1 / ((2 : ℚ) ^ (32 : ℕ) - 1)) ∧
    ∀ (b : ℕ) (v : ℚ), 4 ≤ b → b ≤ 31 → 0 ≤ v → v ≤ 1 →
      |dequantize_unorm (quantize_unorm v b) b - v| ≤ 1 / ((2 : ℚ) ^ b - 1) := by
  constructor
  · have hscale : wrapI32 (2 ^ (32 % 32) - 1) = 0 := by decide
    constructor
    · unfold dequantize_unorm
      rw [hscale]
      norm_num
    · unfold dequantize_unorm
      rw [hscale]
      norm_num
  · intro b v hb4 hb31 hv0 hv1
    rw [dequantize_unorm_eq hb31, quantize_unorm_of_mem hv0 hv1]
    set s : ℚ := (2 : ℚ) ^ b - 1 with hs
    have h16 : (16 : ℚ) ≤ 2 ^ b := by
      calc (16 : ℚ) = 2 ^ (4 : ℕ) := by norm_num
        _ ≤ 2 ^ b := by
          apply pow_le_pow_right₀ (by norm_num) hb4
    have hspos : (0 : ℚ) < s := by rw [hs]; linarith
    have hfl0 : (0 : ℤ) ≤ ⌊v * s + 1 / 2⌋ := Int.floor_nonneg.mpr (by positivity)
    have hcast : ((⌊v * s + 1 / 2⌋.toNat : ℕ) : ℚ) = ((⌊v * s + 1 / 2⌋ : ℤ) : ℚ) := by
      exact_mod_cast congrArg (fun z : ℤ => (z : ℚ)) (Int.toNat_of_nonneg hfl0)
    rw [hcast]
    have hfloor1 : ((⌊v * s + 1 / 2⌋ : ℤ) : ℚ) ≤ v * s + 1 / 2 := Int.floor_le _
    have hfloor2 : v * s + 1 / 2 - 1 < ((⌊v * s + 1 / 2⌋ : ℤ) : ℚ) := Int.sub_one_lt_floor _
    have heq : ((⌊v * s + 1 / 2⌋ : ℤ) : ℚ) / s - v = (((⌊v * s + 1 / 2⌋ : ℤ) : ℚ) - v * s) / s := by
      field_simp
      ring
    rw [heq, abs_div, abs_of_pos hspos]
    rw [div_le_div_iff₀ hspos hspos]
    have habs : |((⌊v * s + 1 / 2⌋ : ℤ) : ℚ) - v * s| ≤ 1 / 2 :=
      abs_le.mpr ⟨by linarith, by linarith⟩
    nlinarith [abs_nonneg (((⌊v * s + 1 / 2⌋ : ℤ) : ℚ) - v * s)]

/-- Witness for `quantize_roundtrip_c2`: the round-trip bound instantiated
at `b = 5`, `v = 1/3`. -/
theorem quantize_roundtrip_c2_witness :
    |dequantize_unorm (quantize_unorm (1 / 3) 5) 5 - 1 / 3| ≤ 1 / ((2 : ℚ) ^ (5 : ℕ) - 1) :=
  quantize_roundtrip_c2.2 5 (1 / 3) (by norm_num) (by norm_num) (by norm_num) (by norm_num)

/-- C10: `AABB::range` returns the larger of the x-extent and the
y-extent, clamped below by `0` (the third operand of the source's `max`
chain is `max.z - max.z`, which is always `0` for the finite values this
model ranges over); in particular the z-extent never influences the
result, so replacing the z-components of an `AABB` arbitrarily leaves
`range` unchanged. -/
theorem aabb_range_c10 (a : AABB) :
    a.range = Max.max (Max.max (a.max.x - a.min.x) (a.max.y - a.min.y)) 0 ∧
    ∀ mz Mz : ℚ,
      (AABB.mk ⟨a.min.x, a.min.y, mz⟩ ⟨a.max.x, a.max.y, Mz⟩).range = a.range := by
  constructor
  · unfold AABB.range
    rw [sub_self]
  · intro mz Mz
    unfold AABB.range
    simp only [sub_self]

lemma gbpvUpd_of_ne (err : ℕ → ℚ) (eps : ℚ) {n : ℕ} (h : n ≠ 32) (b : ℕ) :
    gbpvUpd err eps n b = n := by
  unfold gbpvUpd
  simp [h]

lemma foldl_gbpvUpd_of_ne (err : ℕ → ℚ) (eps : ℚ) {n : ℕ} (h : n ≠ 32) :
    ∀ l : List ℕ, l.foldl (gbpvUpd err eps) n = n := by
  intro l
  induction l with
  | nil => rfl
  | cons b rest ih => rw [List.foldl_cons, gbpvUpd_of_ne err eps h b, ih]

/-- The search loop acts on the three axes independently: it equals the
componentwise fold of the single-axis update, the early break only
skipping updates that provably change nothing. -/
lemma gbpvGo_eq_foldl (vertices : List VertexQ) (mverts : List ℕ) (aabb : AABB)
    (clusterRange eps : ℚ) :
    ∀ (l : List ℕ) (nx ny nz : ℕ),
      gbpvGo vertices mverts aabb clusterRange eps l (nx, ny, nz) =
        (l.foldl (gbpvUpd (fun b => (axisErrors vertices mverts aabb clusterRange b).1) eps) nx,
         l.foldl (gbpvUpd (fun b => (axisErrors vertices mverts aabb clusterRange b).2.1) eps) ny,
         l.foldl (gbpvUpd (fun b => (axisErrors vertices mverts aabb clusterRange b).2.2) eps) nz) := by
  intro l
  induction l with
  | nil => intro nx ny nz; rfl
  | cons bits rest ih =>
      intro nx ny nz
      simp only [gbpvGo, List.foldl_cons]
      have ex : (if (axisErrors vertices mverts aabb clusterRange bits).1 < eps ∧ nx = 32
            then bits else nx) =
          gbpvUpd (fun b => (axisErrors vertices mverts aabb clusterRange b).1) eps nx bits := rfl
      have ey : (if (axisErrors vertices mverts aabb clusterRange bits).2.1 < eps ∧ ny = 32
            then bits else ny) =
          gbpvUpd (fun b => (axisErrors vertices mverts aabb clusterRange b).2.1) eps ny bits := rfl
      have ez : (if (axisErrors vertices mverts aabb clusterRange bits).2.2 < eps ∧ nz = 32
            then bits else nz) =
          gbpvUpd (fun b => (axisErrors vertices mverts aabb clusterRange b).2.2) eps nz bits := rfl
      rw [ex, ey, ez]
      split_ifs with h
      · obtain ⟨h1, h2, h3⟩ := h
        rw [foldl_gbpvUpd_of_ne _ _ h1, foldl_gbpvUpd_of_ne _ _ h2, foldl_gbpvUpd_of_ne _ _ h3]
      · exact ih _ _ _

/-- Folding the single-axis update over an ascending candidate range
starting from the sentinel 32 yields the least satisfying width, or 32
when none satisfies. -/
lemma foldl_gbpvUpd_range' (err : ℕ → ℚ) (eps : ℚ) :
    ∀ count lo : ℕ, lo + count ≤ 32 →
      IsLeastWidthIn lo count err eps ((List.range' lo count).foldl (gbpvUpd err eps) 32) := by
  intro count
  induction count with
  | zero =>
      intro lo _
      left
      exact ⟨rfl, fun b h1 h2 => absurd (lt_of_le_of_lt h1 h2) (by omega)⟩
  | succ n ih =>
      intro lo hle
      rw [List.range'_succ, List.foldl_cons]
      by_cases hpos : err lo < eps
      · have hupd : gbpvUpd err eps 32 lo = lo := by simp [gbpvUpd, hpos]
        rw [hupd, foldl_gbpvUpd_of_ne err eps (show lo ≠ 32 by omega)]
        right
        exact ⟨le_refl lo, by omega, hpos, fun b h1 h2 => absurd (lt_of_le_of_lt h1 h2) (by omega)⟩
      · have hupd : gbpvUpd err eps 32 lo = 32 := by simp [gbpvUpd, hpos]
        rw [hupd]
        rcases ih (lo + 1) (by omega) with ⟨h32, hall⟩ | ⟨h1, h2, h3, h4⟩
        · left
          refine ⟨h32, fun b hb1 hb2 => ?_⟩
          rcases eq_or_lt_of_le hb1 with heq | hlt
          · rw [← heq]; exact hpos
          · exact hall b (by omega) (by omega)
        · right
          refine ⟨by omega, by omega, h3, fun b hb1 hb2 => ?_⟩
          rcases eq_or_lt_of_le hb1 with heq | hlt
          · rw [← heq]; exact hpos
          · exact h4 b (by omega) hb2

/-- Raising the error threshold can only lower (or keep) the width the
fold selects. -/
lemma foldl_gbpvUpd_mono (err : ℕ → ℚ) {e1 e2 : ℚ} (h : e1 ≤ e2)
    (count lo : ℕ) (hle : lo + count ≤ 32) :
    (List.range' lo count).foldl (gbpvUpd err e2) 32 ≤
      (List.range' lo count).foldl (gbpvUpd err e1) 32 := by
  have H2 := foldl_gbpvUpd_range' err e2 count lo hle
  have H1 := foldl_gbpvUpd_range' err e1 count lo hle
  rcases H2 with ⟨h32, hall⟩ | ⟨ha, hb, hc, hd⟩
  · rcases H1 with ⟨h32b, _⟩ | ⟨hx, hy, hz, _⟩
    · omega
    · exact absurd (lt_of_lt_of_le hz h) (hall _ hx hy)
  · rcases H1 with ⟨h32b, _⟩ | ⟨hx, hy, hz, _⟩
    · omega
    · by_cases hlt : (List.range' lo count).foldl (gbpvUpd err e1) 32 <
          (List.range' lo count).foldl (gbpvUpd err e2) 32
      · exact absurd (lt_of_lt_of_le hz h) (hd _ hx hlt)
      · omega

/-- C4: for every meshlet and every threshold, `get_bits_per_vertex`
resolves each of the three axes independently to the least candidate width
in `[4, 30]` (the loop range `4..31`, here `[4, 4 + 27)`) whose worst-case
per-vertex round-trip error — normalized by the meshlet's AABB `range()` —
is strictly below the threshold, first satisfying width winning with no
backtracking, and leaves the 32-bit sentinel on an axis for which no
candidate width satisfies the threshold. -/
lemma get_bits_per_vertex_isLeast (vertices : List VertexQ) (m : MeshletIn) (eps : ℚ) :
    IsLeastWidthIn 4 27
      (fun b => (axisErrors vertices m.vertices (meshletAABB vertices m)
        (meshletAABB vertices m).range b).1) eps
      (get_bits_per_vertex vertices m eps).1 ∧
    IsLeastWidthIn 4 27
      (fun b => (axisErrors vertices m.vertices (meshletAABB vertices m)
        (meshletAABB vertices m).range b).2.1) eps
      (get_bits_per_vertex vertices m eps).2.1 ∧
    IsLeastWidthIn 4 27
      (fun b => (axisErrors vertices m.vertices (meshletAABB vertices m)
        (meshletAABB vertices m).range b).2.2) eps
      (get_bits_per_vertex vertices m eps).2.2 := by
  simp only [get_bits_per_vertex]
  rw [gbpvGo_eq_foldl]
  exact ⟨foldl_gbpvUpd_range' _ _ 27 4 (by omega),
    foldl_gbpvUpd_range' _ _ 27 4 (by omega),
    foldl_gbpvUpd_range' _ _ 27 4 (by omega)⟩

/-- Bounds used by the encoder lemmas: the chosen widths lie in `[1, 32]`. -/
lemma isLeastWidthIn_bounds {lo count : ℕ} {err : ℕ → ℚ} {eps : ℚ} {n : ℕ}
    (h : IsLeastWidthIn lo count err eps n) (hlo : 1 ≤ lo) (hhi : lo + count ≤ 32) :
    1 ≤ n ∧ n ≤ 32 := by
  rcases h with ⟨h32, _⟩ | ⟨h1, h2, _, _⟩ <;> omega

lemma get_bits_per_vertex_bounds (vertices : List VertexQ) (m : MeshletIn) (eps : ℚ) :
    (1 ≤ (get_bits_per_vertex vertices m eps).1 ∧ (get_bits_per_vertex vertices m eps).1 ≤ 32) ∧
    (1 ≤ (get_bits_per_vertex vertices m eps).2.1 ∧
      (get_bits_per_vertex vertices m eps).2.1 ≤ 32) ∧
    (1 ≤ (get_bits_per_vertex vertices m eps).2.2 ∧
      (get_bits_per_vertex vertices m eps).2.2 ≤ 32) := by
  obtain ⟨hx, hy, hz⟩ := get_bits_per_vertex_isLeast vertices m eps
  exact ⟨isLeastWidthIn_bounds hx (by norm_num) (by norm_num),
    isLeastWidthIn_bounds hy (by norm_num) (by norm_num),
    isLeastWidthIn_bounds hz (by norm_num) (by norm_num)⟩

theorem get_bits_per_vertex_c4 (vertices : List VertexQ) (m : MeshletIn) (eps : ℚ) :
    IsLeastWidthIn 4 27
      (fun b => (axisErrors vertices m.vertices (meshletAABB vertices m)
        (meshletAABB vertices m).range b).1) eps
      (get_bits_per_vertex vertices m eps).1 ∧
    IsLeastWidthIn 4 27
      (fun b => (axisErrors vertices m.vertices (meshletAABB vertices m)
        (meshletAABB vertices m).range b).2.1) eps
      (get_bits_per_vertex vertices m eps).2.1 ∧
    IsLeastWidthIn 4 27
      (fun b => (axisErrors vertices m.vertices (meshletAABB vertices m)
        (meshletAABB vertices m).range b).2.2) eps
      (get_bits_per_vertex vertices m eps).2.2 :=
  get_bits_per_vertex_isLeast vertices m eps

/-- C7: for a fixed meshlet, the width chosen by `get_bits_per_vertex` is
antitone in the error tolerance, on each axis. -/
theorem get_bits_monotone_c7 (vertices : List VertexQ) (m : MeshletIn)
    (e1 e2 : ℚ) (h : e1 ≤ e2) :
    (get_bits_per_vertex vertices m e2).1 ≤ (get_bits_per_vertex vertices m e1).1 ∧
    (get_bits_per_vertex vertices m e2).2.1 ≤ (get_bits_per_vertex vertices m e1).2.1 ∧
    (get_bits_per_vertex vertices m e2).2.2 ≤ (get_bits_per_vertex vertices m e1).2.2 := by
  simp only [get_bits_per_vertex]
  rw [gbpvGo_eq_foldl, gbpvGo_eq_foldl]
  refine ⟨?_, ?_, ?_⟩
  · exact foldl_gbpvUpd_mono
      (fun b => (axisErrors vertices m.vertices (meshletAABB vertices m)
        (meshletAABB vertices m).range b).1) h 27 4 (by omega)
  · exact foldl_gbpvUpd_mono
      (fun b => (axisErrors vertices m.vertices (meshletAABB vertices m)
        (meshletAABB vertices m).range b).2.1) h 27 4 (by omega)
  · exact foldl_gbpvUpd_mono
      (fun b => (axisErrors vertices m.vertices (meshletAABB vertices m)
        (meshletAABB vertices m).range b).2.2) h 27 4 (by omega)

/-- Witness for `get_bits_monotone_c7`: tolerances `0 ≤ 1` on the example
meshlet. -/
theorem get_bits_monotone_c7_witness :
    (get_bits_per_vertex exVerts exMeshlet 1).1 ≤ (get_bits_per_vertex exVerts exMeshlet 0).1 ∧
    (get_bits_per_vertex exVerts exMeshlet 1).2.1 ≤
      (get_bits_per_vertex exVerts exMeshlet 0).2.1 ∧
    (get_bits_per_vertex exVerts exMeshlet 1).2.2 ≤
      (get_bits_per_vertex exVerts exMeshlet 0).2.2 :=
  get_bits_monotone_c7 exVerts exMeshlet 0 1 (by norm_num)

/-- Helper: reading a word of the buffer view, also past its end (the
source's `get_unchecked` out-of-bounds case, modelled as 0; the stream has
no bits there either). -/
lemma wordsOf_getD (S nw j : ℕ) (h : S < 2 ^ (32 * nw)) :
    (wordsOf S nw).getD j 0 = (S >>> (32 * j)) % 2 ^ 32 := by
  unfold wordsOf
  rw [List.getD_eq_getElem?_getD, List.getElem?_map]
  by_cases hj : j < nw
  · rw [List.getElem?_range hj]
    rfl
  · have hnone : (List.range nw)[j]? = none := by
      rw [List.getElem?_eq_none]
      simpa using Nat.le_of_not_lt hj
    rw [hnone]
    have hzero : S >>> (32 * j) = 0 := by
      rw [Nat.shiftRight_eq_div_pow]
      apply Nat.div_eq_of_lt
      calc S < 2 ^ (32 * nw) := h
        _ ≤ 2 ^ (32 * j) := Nat.pow_le_pow_right (by norm_num) (by omega)
    rw [hzero]
    rfl

/-- Correctness of `read_bits_unchecked` for widths up to 31: it returns
exactly the `w` bits stored LSB-first at the offset — including reads that
straddle a 32-bit word boundary — and advances the offset by `w`. -/
lemma read_bits_spec (S nw off w : ℕ) (hS : S < 2 ^ (32 * nw)) (hw1 : 1 ≤ w)
    (hw2 : w ≤ 31) (_hbound : off + w ≤ 32 * nw) :
    (BitReaderM.read_bits_unchecked ⟨wordsOf S nw, off⟩ w).1 = (S >>> off) % 2 ^ w ∧
    (BitReaderM.read_bits_unchecked ⟨wordsOf S nw, off⟩ w).2.offset = off + w := by
  refine ⟨?_, rfl⟩
  have hb : off % 32 < 32 := Nat.mod_lt _ (by norm_num)
  unfold BitReaderM.read_bits_unchecked
  simp only [wordsOf_getD S nw _ hS]
  have hmask : shl32 1 w - 1 = 2 ^ w - 1 := by
    unfold shl32
    rw [Nat.mod_eq_of_lt (show w < 32 by omega), Nat.one_shiftLeft,
      Nat.mod_eq_of_lt (Nat.pow_lt_pow_right (by norm_num) (by omega))]
  rw [hmask, Nat.and_pow_two_sub_one_eq_mod]
  have hT1 : (S >>> (32 * (off / 32))) >>> (off % 32) = S >>> off := by
    rw [← Nat.shiftRight_add]
    congr 1
    omega
  have hT2 : S >>> (32 * (off / 32 + 1)) = (S >>> (32 * (off / 32))) >>> 32 := by
    rw [← Nat.shiftRight_add]
    congr 1
  set T := S >>> (32 * (off / 32)) with hTdef
  rw [hT2, ← hT1]
  set b := off % 32 with hbdef
  split_ifs with hst
  · have hb1 : 1 ≤ b := by omega
    unfold shl32
    rw [Nat.mod_eq_of_lt (show 32 - b < 32 by omega)]
    apply Nat.eq_of_testBit_eq
    intro j
    simp only [Nat.testBit_mod_two_pow, Nat.testBit_or, Nat.testBit_shiftRight,
      Nat.testBit_shiftLeft, Nat.testBit_mod_two_pow]
    by_cases hjw : j < w
    · have hj32 : j < 32 := by omega
      by_cases hcross : b + j < 32
      · have h2 : ¬ 32 - b ≤ j := by omega
        simp [hjw, hcross, h2]
      · have h2 : 32 - b ≤ j := by omega
        have h3 : j - (32 - b) < 32 := by omega
        have h4 : 32 + (j - (32 - b)) = b + j := by omega
        simp [hjw, hcross, h2, h3, h4, hj32]
    · simp [hjw]
  · apply Nat.eq_of_testBit_eq
    intro j
    simp only [Nat.testBit_mod_two_pow, Nat.testBit_shiftRight]
    by_cases hjw : j < w
    · have : b + j < 32 := by omega
      simp [hjw, this]
    · simp [hjw]

/-- C3 (code bug evidence): for every stored stream, every in-bounds
offset and every width `1 ≤ w ≤ 31` — word-boundary straddles included —
`read_bits_unchecked` returns exactly the `w` bits stored LSB-first at
that offset and advances the offset by `w` (first conjunct); the reader
replays the repository's own unit test vector exactly, widths `2..20`
written consecutively, some fields straddling the 32-bit word boundary
(second conjunct).  A 32-bit read, however, returns 0 instead of the
stored 32 bits, because the mask `(1u32 << 32) - 1` wraps to 0 (third
conjunct; the stored word `2 ^ 32 - 1` is not 0, fourth conjunct). -/
theorem read_bits_c3 :
    (∀ S nw off w : ℕ, S < 2 ^ (32 * nw) → 1 ≤ w → w ≤ 31 → off + w ≤ 32 * nw →
      (BitReaderM.read_bits_unchecked ⟨wordsOf S nw, off⟩ w).1 = (S >>> off) % 2 ^ w ∧
      (BitReaderM.read_bits_unchecked ⟨wordsOf S nw, off⟩ w).2.offset = off + w) ∧
    readValues ⟨c3TestWords, 0⟩ (List.range' 2 18) =
      (List.range' 2 18).map (fun i => 2 ^ i - 2) ∧
    (BitReaderM.read_bits_unchecked ⟨[2 ^ 32 - 1], 0⟩ 32).1 = 0 ∧
    2 ^ 32 - 1 ≠ 0 := by
  exact ⟨read_bits_spec, by decide, by decide, by decide⟩

/-- Witness for `read_bits_c3`: a width-4 read straddling the boundary
between the two words of a 64-bit stream, at bit offset 30. -/
theorem read_bits_c3_witness :
    (BitReaderM.read_bits_unchecked ⟨wordsOf 16045690984833335023 2, 30⟩ 4).1 =
      (16045690984833335023 >>> 30) % 2 ^ 4 ∧
    (BitReaderM.read_bits_unchecked ⟨wordsOf 16045690984833335023 2, 30⟩ 4).2.offset = 30 + 4 :=
  read_bits_c3.1 16045690984833335023 2 30 4 (by norm_num) (by norm_num) (by norm_num)
    (by norm_num)

/-- C1 (code bug): the GPU decoder cannot recover the header fields of
width 32.  `Meshlet::from_bits` reads the 32-bit data-offset field (and
each AABB float field) through `read_bits_unchecked(32)`, whose mask
`(1u32 << 32) - 1` wraps to 0, so the decoded `data_offset` (and the read
AABB minimum) is 0 for every buffer and every starting offset — while the
encoder writes 270, the bit position of the first payload, into the first
header's offset field of the example single-meshlet mesh.  The payload is
therefore read from bit offset 0, inside the header region, and the
original quantized vertex and index data is not recovered. -/
theorem decode_roundtrip_c1 :
    (∀ (buffer : List ℕ) (offset : ℕ),
      (meshletFromBits ⟨buffer, offset⟩).1.dataOffset = 0 ∧
      (meshletFromBits ⟨buffer, offset⟩).1.minXbits = 0) ∧
    writtenOffsetList exVerts 1 [exMeshlet] (1 * encoderPerHeaderBits) = [270] ∧
    (270 : ℕ) ≠ 0 := by
  refine ⟨?_, by decide, by decide⟩
  intro buffer offset
  have hmask : shl32 1 32 - 1 = 0 := by decide
  constructor <;> simp [meshletFromBits, BitReaderM.read_bits_unchecked, hmask, Nat.and_zero]

/-- C6: the encoder sizes the header region at
`size_of::<AABB>() * 8 + 78 = 270` bits per header; the field widths the
encoder actually writes sum to exactly 270 for every meshlet; the decoder
hardcodes the same 270-bit stride; and `Meshlet::from_bits` advances the
reader by exactly 270 bits from any starting offset.  Encoder and decoder
agree on a constant 270-bit header layout. -/
theorem header_stride_c6 :
    encoderPerHeaderBits = 270 ∧
    decoderHeaderStride = encoderPerHeaderBits ∧
    (∀ (fb : ℚ → ℕ) (aabb : AABB) (vs : ℕ × ℕ × ℕ) (isz nv nt off : ℕ),
      ((headerFields fb aabb vs isz nv nt off).map Prod.fst).sum = 270) ∧
    ∀ (buffer : List ℕ) (offset : ℕ),
      (meshletFromBits ⟨buffer, offset⟩).2.offset = offset + 270 := by
  refine ⟨rfl, rfl, fun fb aabb vs isz nv nt off => by norm_num [headerFields], ?_⟩
  intro buffer offset
  simp only [meshletFromBits, BitReaderM.read_bits_unchecked]

/-- Helper for C5: closed form of the data-offset accumulator.  The `k`-th
offset the header pass writes is the starting offset plus the payload bit
sizes of all prior meshlets, taken modulo `2 ^ 32` by the `as u32` cast. -/
lemma writtenOffsetList_getD (vertices : List VertexQ) (eps : ℚ) :
    ∀ (ms : List MeshletIn) (start k : ℕ), k < ms.length →
      (writtenOffsetList vertices eps ms start).getD k 0 =
        (start + ((ms.take k).map (payloadBits vertices eps)).sum) % 2 ^ 32 := by
  intro ms
  induction ms with
  | nil => intro start k hk; simp at hk
  | cons m rest ih =>
      intro start k hk
      cases k with
      | zero => simp [writtenOffsetList]
      | succ k =>
          simp only [writtenOffsetList, List.getD_cons_succ, List.take_succ_cons,
            List.map_cons, List.sum_cons]
          rw [ih (start + payloadBits vertices eps m) k (by simpa using hk)]
          congr 1
          omega

/-- C5 (amended): the data-offset field written into meshlet `k`'s header
is the exact BIT position where its payload begins — the 270-bit-per-header
size of the header region plus the running sum of all prior meshlets'
exact payload bit sizes (vertex count × per-vertex bit cost + flattened
index count × index bit width), cast to `u32`. -/
theorem data_offset_formula_c5 (vertices : List VertexQ) (eps : ℚ)
    (ms : List MeshletIn) (k : ℕ) (hk : k < ms.length) :
    (writtenOffsetList vertices eps ms (ms.length * encoderPerHeaderBits)).getD k 0 =
      (ms.length * 270 + ((ms.take k).map (payloadBits vertices eps)).sum) % 2 ^ 32 :=
  writtenOffsetList_getD vertices eps ms (ms.length * encoderPerHeaderBits) k hk

/-- Witness for `data_offset_formula_c5`: the single-meshlet example at
`k = 0`. -/
theorem data_offset_formula_c5_witness :
    (writtenOffsetList exVerts 1 [exMeshlet]
        (([exMeshlet] : List MeshletIn).length * encoderPerHeaderBits)).getD 0 0 =
      (([exMeshlet] : List MeshletIn).length * 270 +
        ((([exMeshlet] : List MeshletIn).take 0).map (payloadBits exVerts 1)).sum) % 2 ^ 32 :=
  data_offset_formula_c5 exVerts 1 [exMeshlet] 0 (by decide)

/-- A quantized value always fits the width it was quantized at. -/
lemma quantize_unorm_lt (v : ℚ) (n : ℕ) : quantize_unorm v n < 2 ^ n := by
  unfold quantize_unorm
  set v0 := if 0 ≤ v then v else 0 with hv0
  set v1 := if v0 ≤ 1 then v0 else 1 with hv1
  have h0 : 0 ≤ v0 := by rw [hv0]; split_ifs with h; exact h; exact le_refl 0
  have h1 : v1 ≤ 1 := by rw [hv1]; split_ifs with h; exact h; exact le_refl 1
  have h2n : (1 : ℚ) ≤ 2 ^ n := by exact_mod_cast Nat.one_le_two_pow
  have hlt : v1 * ((2 : ℚ) ^ n - 1) + 1 / 2 < (2 : ℚ) ^ n := by nlinarith
  have hfl : ⌊v1 * ((2 : ℚ) ^ n - 1) + 1 / 2⌋ < ((2 ^ n : ℕ) : ℤ) := by
    apply Int.floor_lt.mpr
    push_cast
    exact hlt
  rcases le_or_lt 0 (⌊v1 * ((2 : ℚ) ^ n - 1) + 1 / 2⌋) with hge | hneg
  · exact (Int.toNat_lt hge).mpr hfl
  · rw [Int.toNat_of_nonpos (le_of_lt hneg)]
    exact Nat.pos_pow_of_pos n (by norm_num)

/-- The width sum of one header's field list is the constant 270. -/
lemma headerFields_widths_sum (fb : ℚ → ℕ) (aabb : AABB) (vs : ℕ × ℕ × ℕ)
    (isz nv nt off : ℕ) :
    ((headerFields fb aabb vs isz nv nt off).map Prod.fst).sum = 270 := by
  norm_num [headerFields]

/-- Wrapping decrement: `a as u32 - 1` is plain `a - 1` for `1 ≤ a ≤ 2 ^ 31`. -/
lemma wsub32_one {a : ℕ} (h1 : 1 ≤ a) (h2 : a ≤ 2 ^ 31) : wsub32 a 1 = a - 1 := by
  unfold wsub32
  norm_num
  omega

/-- When every field value fits its width, the write sequence succeeds and
advances the bit length by the sum of the widths. -/
lemma writeFields_ok_len :
    ∀ (fields : List (ℕ × ℕ)), (∀ f ∈ fields, f.2 < 2 ^ f.1) →
      ∀ bw : BW, ∃ s, writeFields bw fields = .ok ⟨s, bw.len + (fields.map Prod.fst).sum⟩ := by
  intro fields
  induction fields with
  | nil => intro _ bw; exact ⟨bw.stream, by simp [writeFields]⟩
  | cons f rest ih =>
      intro hfit bw
      have hw : f.2 < 2 ^ f.1 := hfit f (by simp)
      obtain ⟨s, hs⟩ := ih (fun g hg => hfit g (by simp [hg])) ⟨bw.stream + f.2 * 2 ^ bw.len, bw.len + f.1⟩
      refine ⟨s, ?_⟩
      simp only [writeFields, BW.write, if_pos hw, hs, List.map_cons, List.sum_cons]
      congr 2
      omega

/-- When some field value does not fit its width, the write sequence
fails, whatever the writer state. -/
lemma writeFields_fail :
    ∀ (fields : List (ℕ × ℕ)), (∃ f ∈ fields, ¬ f.2 < 2 ^ f.1) →
      ∀ bw : BW, okB (writeFields bw fields) = false := by
  intro fields
  induction fields with
  | nil => rintro ⟨f, hf, _⟩; simp at hf
  | cons f rest ih =>
      rintro ⟨g, hg, hgbad⟩ bw
      by_cases hw : f.2 < 2 ^ f.1
      · rcases List.mem_cons.mp hg with rfl | hgrest
        · exact absurd hw hgbad
        · simp only [writeFields, BW.write, if_pos hw]
          exact ih ⟨g, hgrest, hgbad⟩ _
      · simp [writeFields, BW.write, if_neg hw, okB]

/-- Evaluation of `Nat.clog` at the example vertex count 2. -/
lemma clog_two_two : Nat.clog 2 2 = 1 := by norm_num [Nat.clog]

/-- A header write succeeds and advances the bit length by exactly 270
whenever the `f32::to_bits` values fit 32 bits (always true of the real
function) and the meshlet's counts fit their fields. -/
lemma writeHeader_ok_len (fb : ℚ → ℕ) (hfb : ∀ q, fb q < 2 ^ 32)
    (vertices : List VertexQ) (eps : ℚ) (m : MeshletIn)
    (hisz : 1 ≤ get_bits_per_index m.vertices.length ∧
      get_bits_per_index m.vertices.length ≤ 32)
    (hnv : 1 ≤ m.vertices.length ∧ m.vertices.length ≤ 64)
    (hnt : 1 ≤ m.triangles.length / 3 ∧ m.triangles.length / 3 ≤ 128)
    (offset : ℕ) (bw : BW) :
    ∃ s, writeHeader fb vertices eps m offset bw = .ok ⟨s, bw.len + 270⟩ := by
  unfold writeHeader
  have hfit : ∀ f ∈ headerFields fb (meshletSizes vertices eps m).2.2
      (meshletSizes vertices eps m).1 (meshletSizes vertices eps m).2.1
      m.vertices.length (m.triangles.length / 3) offset, f.2 < 2 ^ f.1 := by
    intro f hf
    obtain ⟨⟨hx1, hx2⟩, ⟨hy1, hy2⟩, ⟨hz1, hz2⟩⟩ := get_bits_per_vertex_bounds vertices m eps
    simp only [headerFields, meshletSizes, List.mem_cons, List.not_mem_nil, or_false] at hf
    have hp5 : (2 : ℕ) ^ 5 = 32 := by norm_num
    have hp6 : (2 : ℕ) ^ 6 = 64 := by norm_num
    have hp7 : (2 : ℕ) ^ 7 = 128 := by norm_num
    have h31 : (2 : ℕ) ^ 31 = 2147483648 := by norm_num
    rcases hf with rfl | rfl | rfl | rfl | rfl | rfl | rfl | rfl | rfl | rfl | rfl | rfl
      | rfl | rfl | rfl | rfl
    · exact hfb _
    · exact hfb _
    · exact hfb _
    · exact hfb _
    · exact hfb _
    · exact hfb _
    · show wsub32 (get_bits_per_vertex vertices m eps).1 1 < 2 ^ 5
      rw [wsub32_one hx1 (by omega)]
      omega
    · show wsub32 (get_bits_per_vertex vertices m eps).2.1 1 < 2 ^ 5
      rw [wsub32_one hy1 (by omega)]
      omega
    · show wsub32 (get_bits_per_vertex vertices m eps).2.2 1 < 2 ^ 5
      rw [wsub32_one hz1 (by omega)]
      omega
    · show wsub32 32 1 < 2 ^ 5
      rw [wsub32_one (by norm_num) (by norm_num)]
      omega
    · show wsub32 32 1 < 2 ^ 5
      rw [wsub32_one (by norm_num) (by norm_num)]
      omega
    · show wsub32 8 1 < 2 ^ 3
      rw [wsub32_one (by norm_num) (by norm_num)]
      norm_num
    · show wsub32 (get_bits_per_index m.vertices.length) 1 < 2 ^ 5
      rw [wsub32_one hisz.1 (by omega)]
      omega
    · show wsub32 m.vertices.length 1 < 2 ^ 6
      rw [wsub32_one hnv.1 (by omega)]
      omega
    · show wsub32 (m.triangles.length / 3) 1 < 2 ^ 7
      rw [wsub32_one hnt.1 (by omega)]
      omega
    · show offset % 2 ^ 32 < 2 ^ 32
      exact Nat.mod_lt _ (by norm_num)
  obtain ⟨s, hs⟩ := writeFields_ok_len _ hfit bw
  refine ⟨s, ?_⟩
  rw [hs, headerFields_widths_sum]

/-- The header pass over a single meshlet succeeds, ending at bit 270. -/
lemma headersPass_singleton_ok (fb : ℚ → ℕ) (hfb : ∀ q, fb q < 2 ^ 32)
    (vertices : List VertexQ) (eps : ℚ) (m : MeshletIn)
    (hisz : 1 ≤ get_bits_per_index m.vertices.length ∧
      get_bits_per_index m.vertices.length ≤ 32)
    (hnv : 1 ≤ m.vertices.length ∧ m.vertices.length ≤ 64)
    (hnt : 1 ≤ m.triangles.length / 3 ∧ m.triangles.length / 3 ≤ 128)
    (offset : ℕ) (bw : BW) :
    ∃ s, headersPass fb vertices eps [m] offset bw = .ok ⟨s, bw.len + 270⟩ := by
  obtain ⟨s, hs⟩ := writeHeader_ok_len fb hfb vertices eps m hisz hnv hnt offset bw
  exact ⟨s, by simp [headersPass, hs]⟩

/-- Every value in a meshlet's payload field list fits its width, provided
the triangle indices fit the meshlet's index width. -/
lemma payloadFields_fit (vertices : List VertexQ) (eps : ℚ) (m : MeshletIn)
    (hidx : ∀ i ∈ m.triangles, i < 2 ^ (meshletSizes vertices eps m).2.1) :
    ∀ f ∈ meshletPayloadFields vertices eps m, f.2 < 2 ^ f.1 := by
  intro f hf
  unfold meshletPayloadFields at hf
  rcases List.mem_append.mp hf with hv | ht
  · obtain ⟨l, hl, hfl⟩ := List.mem_flatten.mp hv
    obtain ⟨vi, hvi, rfl⟩ := List.mem_map.mp hl
    simp only [vertexFields, List.mem_cons, List.not_mem_nil, or_false] at hfl
    rcases hfl with rfl | rfl | rfl | rfl | rfl | rfl | rfl | rfl
    all_goals exact quantize_unorm_lt _ _
  · obtain ⟨i, hi, rfl⟩ := List.mem_map.mp ht
    exact hidx i hi

/-- The payload pass over a single meshlet succeeds under the same index
condition. -/
lemma payloadPass_singleton_ok (vertices : List VertexQ) (eps : ℚ) (m : MeshletIn)
    (hidx : ∀ i ∈ m.triangles, i < 2 ^ (meshletSizes vertices eps m).2.1) (bw : BW) :
    ∃ bw2, payloadPass vertices eps [m] bw = .ok bw2 := by
  obtain ⟨s, hs⟩ := writeFields_ok_len _ (payloadFields_fit vertices eps m hidx) bw
  refine ⟨⟨s, bw.len + ((meshletPayloadFields vertices eps m).map Prod.fst).sum⟩, ?_⟩
  simp [payloadPass, hs]

/-- A single-meshlet build succeeds when the header fields and the
triangle indices fit. -/
lemma build_singleton_ok (fb : ℚ → ℕ) (hfb : ∀ q, fb q < 2 ^ 32)
    (vertices : List VertexQ) (eps : ℚ) (m : MeshletIn)
    (hisz : 1 ≤ get_bits_per_index m.vertices.length ∧
      get_bits_per_index m.vertices.length ≤ 32)
    (hnv : 1 ≤ m.vertices.length ∧ m.vertices.length ≤ 64)
    (hnt : 1 ≤ m.triangles.length / 3 ∧ m.triangles.length / 3 ≤ 128)
    (hidx : ∀ i ∈ m.triangles, i < 2 ^ (meshletSizes vertices eps m).2.1) :
    okB (build_from_mesh fb vertices eps [m]) = true := by
  obtain ⟨s1, h1⟩ := headersPass_singleton_ok fb hfb vertices eps m hisz hnv hnt
    (([m] : List MeshletIn).length * encoderPerHeaderBits) BW.init
  obtain ⟨bw2, h2⟩ := payloadPass_singleton_ok vertices eps m hidx ⟨s1, BW.init.len + 270⟩
  simp only [build_from_mesh, h1, h2, okB]

/-- A header write fails — whatever the writer state and offset — when the
meshlet's vertex count exceeds the 6-bit field (count > 64) or its
triangle count exceeds the 7-bit field (count > 128). -/
lemma writeHeader_fail_of_counts (fb : ℚ → ℕ) (vertices : List VertexQ) (eps : ℚ)
    (m : MeshletIn)
    (h1 : m.vertices.length ≤ 2 ^ 31) (h2 : m.triangles.length ≤ 2 ^ 31)
    (hv : 64 < m.vertices.length ∨ 128 < m.triangles.length / 3)
    (offset : ℕ) (bw : BW) :
    okB (writeHeader fb vertices eps m offset bw) = false := by
  unfold writeHeader
  apply writeFields_fail
  have hp6 : (2 : ℕ) ^ 6 = 64 := by norm_num
  have hp7 : (2 : ℕ) ^ 7 = 128 := by norm_num
  rcases hv with hv | hv
  · refine ⟨(6, wsub32 m.vertices.length 1), ?_, ?_⟩
    · simp [headerFields]
    · show ¬ wsub32 m.vertices.length 1 < 2 ^ 6
      rw [wsub32_one (by omega) h1]
      omega
  · refine ⟨(7, wsub32 (m.triangles.length / 3) 1), ?_, ?_⟩
    · simp [headerFields]
    · show ¬ wsub32 (m.triangles.length / 3) 1 < 2 ^ 7
      rw [wsub32_one (by omega) (by omega)]
      omega

/-- A failing header write anywhere in the meshlet list makes the whole
header pass fail. -/
lemma headersPass_fail (fb : ℚ → ℕ) (vertices : List VertexQ) (eps : ℚ) :
    ∀ ms : List MeshletIn,
      (∃ m ∈ ms, ∀ (offset : ℕ) (bw : BW),
        okB (writeHeader fb vertices eps m offset bw) = false) →
      ∀ (offset : ℕ) (bw : BW), okB (headersPass fb vertices eps ms offset bw) = false := by
  intro ms
  induction ms with
  | nil => rintro ⟨m, hm, _⟩; simp at hm
  | cons m rest ih =>
      rintro ⟨g, hg, hgbad⟩ offset bw
      rcases List.mem_cons.mp hg with rfl | hgrest
      · have hfail := hgbad offset bw
        cases hw : writeHeader fb vertices eps g offset bw with
        | ok bw2 => rw [hw] at hfail; simp [okB] at hfail
        | error e => simp [headersPass, hw, okB]
      · cases hw : writeHeader fb vertices eps m offset bw with
        | ok bw2 =>
            simp only [headersPass, hw]
            exact ih ⟨g, hgrest, hgbad⟩ _ _
        | error e => simp [headersPass, hw, okB]

/-- A failing header pass makes the whole build fail. -/
lemma build_fail_of_headers (fb : ℚ → ℕ) (vertices : List VertexQ) (eps : ℚ)
    (ms : List MeshletIn)
    (h : okB (headersPass fb vertices eps ms (ms.length * encoderPerHeaderBits) BW.init)
      = false) :
    okB (build_from_mesh fb vertices eps ms) = false := by
  unfold build_from_mesh
  cases hh : headersPass fb vertices eps ms (ms.length * encoderPerHeaderBits) BW.init with
  | ok bw => rw [hh] at h; simp [okB] at h
  | error e => simp [okB]

/-- C5 counterexample to the claim as stated: the offset the encoder
writes is a bit position, not a byte position.  For the single-meshlet
example the written field is 270; the header pass itself ends at bit
length 270, so the payload begins at bit 270; and 270 is not divisible by
8 — no byte of the buffer begins where the payload begins, so the written
field cannot be the payload's byte position. -/
theorem data_offset_not_byte_c5 :
    (writtenOffsetList exVerts 1 [exMeshlet] 270).getD 0 0 = 270 ∧
    bwLenOf (headersPass (fun _ => 0) exVerts 1 [exMeshlet] 270 BW.init) = 270 ∧
    okB (headersPass (fun _ => 0) exVerts 1 [exMeshlet] 270 BW.init) = true ∧
    ¬ 8 ∣ 270 := by
  have hlen : exMeshlet.vertices.length = 2 := by decide
  have hisz : 1 ≤ get_bits_per_index exMeshlet.vertices.length ∧
      get_bits_per_index exMeshlet.vertices.length ≤ 32 := by
    rw [hlen]
    unfold get_bits_per_index
    rw [clog_two_two]
    exact ⟨le_refl 1, by norm_num⟩
  have hnv : 1 ≤ exMeshlet.vertices.length ∧ exMeshlet.vertices.length ≤ 64 := by
    rw [hlen]; exact ⟨by norm_num, by norm_num⟩
  have hnt : 1 ≤ exMeshlet.triangles.length / 3 ∧ exMeshlet.triangles.length / 3 ≤ 128 := by
    have : exMeshlet.triangles.length = 3 := by decide
    rw [this]; exact ⟨by norm_num, by norm_num⟩
  obtain ⟨s, hs⟩ := headersPass_singleton_ok (fun _ => 0) (fun _ => by norm_num)
    exVerts 1 exMeshlet hisz hnv hnt 270 BW.init
  refine ⟨by decide, ?_, ?_, by decide⟩
  · rw [hs]; rfl
  · rw [hs]; rfl

/-- The component-wise fold of `aabbStep` over a point list whose x
coordinates all equal `c` yields `min acc c` and `max acc c` on x. -/
lemma foldl_aabbStep_x (c : ℚ) :
    ∀ l : List Vec3Q, l ≠ [] → (∀ p ∈ l, p.x = c) → ∀ acc : AABB,
      (l.foldl aabbStep acc).min.x = Min.min acc.min.x c ∧
      (l.foldl aabbStep acc).max.x = Max.max acc.max.x c := by
  intro l
  induction l with
  | nil => intro h; exact absurd rfl h
  | cons p rest ih =>
      intro _ h acc
      have hp : p.x = c := h p (by simp)
      have hrest : ∀ q ∈ rest, q.x = c := fun q hq => h q (by simp [hq])
      rw [List.foldl_cons]
      by_cases hr : rest = []
      · subst hr
        simp [aabbStep, hp]
      · obtain ⟨ih1, ih2⟩ := ih hr hrest (aabbStep acc p)
        rw [ih1, ih2]
        constructor
        · show Min.min (aabbStep acc p).min.x c = Min.min acc.min.x c
          simp [aabbStep, hp, min_assoc]
        · show Max.max (aabbStep acc p).max.x c = Max.max acc.max.x c
          simp [aabbStep, hp, max_assoc]

/-- C8 (amended): no guard is performed.  Both the bit-width search
(util.rs, lines 41-43) and the encoder's payload pass (simple_mesh.rs,
lines 174-176) divide by the `normDenoms` extents unconditionally, and for
every meshlet whose vertices share one x coordinate (within the `f32`
range, so the AABB fold's sentinels wash out) the x divisor is exactly
`max.x - min.x = 0`: the division-by-zero case does occur.  In the `f32`
source the division then produces NaN/±infinity; this exact model maps it
to 0. -/
theorem unguarded_zero_range_c8 (vertices : List VertexQ) (m : MeshletIn) (c : ℚ)
    (hne : m.vertices ≠ [])
    (hall : ∀ i ∈ m.vertices, (vertices.getD i default).position.x = c)
    (hlo : f32MIN ≤ c) (hhi : c ≤ f32MAX) :
    (normDenoms (meshletAABB vertices m)).1 = 0 := by
  unfold normDenoms meshletAABB AABB.fromPoints
  have hl : (m.vertices.map fun v => (vertices.getD v default).position) ≠ [] := by
    simp [hne]
  have hallp : ∀ p ∈ m.vertices.map fun v => (vertices.getD v default).position, p.x = c := by
    intro p hp
    obtain ⟨i, hi, rfl⟩ := List.mem_map.mp hp
    exact hall i hi
  obtain ⟨h1, h2⟩ := foldl_aabbStep_x c _ hl hallp
    ⟨⟨f32MAX, f32MAX, f32MAX⟩, ⟨f32MIN, f32MIN, f32MIN⟩⟩
  show (_ : AABB).max.x - (_ : AABB).min.x = 0
  rw [h1, h2]
  rw [min_eq_right hhi, max_eq_right hlo, sub_self]

/-- Witness for `unguarded_zero_range_c8`: the degenerate example meshlet,
whose two vertices share x coordinate 0. -/
theorem unguarded_zero_range_c8_witness :
    (normDenoms (meshletAABB exVertsDegX exMeshlet)).1 = 0 :=
  unguarded_zero_range_c8 exVertsDegX exMeshlet 0 (by decide) (by decide)
    (by norm_num [f32MIN, f32MAX]) (by norm_num [f32MAX])

/-- C8 counterexample to the claim as stated: on the concrete meshlet
whose vertices share x coordinate 0, the divisor `max.x - min.x` used —
unguarded — by both `get_bits_per_vertex` and the encoder's payload
normalization is exactly 0, so the division-by-zero case the claim rules
out does occur.  (Proof mirrors the amended theorem's reasoning on the
concrete input; the embedded functions contain no guard, as the source
contains none.) -/
theorem unguarded_zero_range_c8_cx :
    (normDenoms (meshletAABB exVertsDegX exMeshlet)).1 = 0 := by
  have hallp : ∀ p ∈ exMeshlet.vertices.map
      fun v => (exVertsDegX.getD v default).position, p.x = 0 := by decide
  have hl : (exMeshlet.vertices.map fun v => (exVertsDegX.getD v default).position) ≠ [] := by
    decide
  unfold normDenoms meshletAABB AABB.fromPoints
  obtain ⟨h1, h2⟩ := foldl_aabbStep_x 0 _ hl hallp
    ⟨⟨f32MAX, f32MAX, f32MAX⟩, ⟨f32MIN, f32MIN, f32MIN⟩⟩
  show (_ : AABB).max.x - (_ : AABB).min.x = 0
  rw [h1, h2]
  rw [min_eq_right (by norm_num [f32MAX]), max_eq_right (by norm_num [f32MIN, f32MAX]),
    sub_self]

/-- C9 (amended): the partitioner is invoked with the hard caps
`MAX_VERTICES = 64` and `MAX_TRIANGLES = 124`, and `build_from_mesh`
returns an error whenever a meshlet's counts overflow the header fields:
vertex count above 64 (the 6-bit count-minus-one write rejects it) or
triangle count above 128 (the 7-bit count-minus-one write rejects it).
Triangle counts of 125 to 128 exceed the cap but fit the field; see the
counterexample. -/
theorem capacity_error_c9 (fb : ℚ → ℕ) (vertices : List VertexQ) (eps : ℚ)
    (ms : List MeshletIn)
    (hsz : ∀ m ∈ ms, m.vertices.length ≤ 2 ^ 31 ∧ m.triangles.length ≤ 2 ^ 31)
    (hviol : ∃ m ∈ ms, 64 < m.vertices.length ∨ 128 < m.triangles.length / 3) :
    MAX_VERTICES = 64 ∧ MAX_TRIANGLES = 124 ∧
      okB (build_from_mesh fb vertices eps ms) = false := by
  refine ⟨rfl, rfl, ?_⟩
  apply build_fail_of_headers
  apply headersPass_fail
  obtain ⟨m, hm, hv⟩ := hviol
  obtain ⟨hs1, hs2⟩ := hsz m hm
  exact ⟨m, hm, writeHeader_fail_of_counts fb vertices eps m hs1 hs2 hv⟩

/-- Witness for `capacity_error_c9`: a 65-vertex meshlet fails to build. -/
theorem capacity_error_c9_witness :
    MAX_VERTICES = 64 ∧ MAX_TRIANGLES = 124 ∧
      okB (build_from_mesh (fun _ => 0) exVerts 1 [exMeshlet65]) = false :=
  capacity_error_c9 (fun _ => 0) exVerts 1 [exMeshlet65]
    (by intro m hm; rw [List.mem_singleton.mp hm]; exact ⟨by decide, by decide⟩)
    ⟨exMeshlet65, List.mem_singleton.mpr rfl, Or.inl (by decide)⟩

/-- C9 counterexample to the claim as stated: a meshlet with 125
triangles — exceeding the `MAX_TRIANGLES = 124` cap — builds WITHOUT an
error: the 7-bit triangle-count field stores `125 - 1 = 124` and its write
only rejects counts above 128, so the violation is encoded silently. -/
theorem capacity_error_c9_cx :
    exMeshlet125.triangles.length / 3 = 125 ∧
    MAX_TRIANGLES < exMeshlet125.triangles.length / 3 ∧
    okB (build_from_mesh (fun _ => 0) exVerts 1 [exMeshlet125]) = true := by
  have hlen : exMeshlet125.vertices.length = 2 := by
    simp only [exMeshlet125, List.length_cons, List.length_nil]
  have htris : exMeshlet125.triangles.length = 375 := by
    simp only [exMeshlet125, List.length_replicate]
  refine ⟨by rw [htris], by rw [htris]; norm_num [MAX_TRIANGLES], ?_⟩
  apply build_singleton_ok (fun _ => 0) (fun _ => by norm_num) exVerts 1 exMeshlet125
  · rw [hlen]
    unfold get_bits_per_index
    rw [clog_two_two]
    exact ⟨le_refl 1, by norm_num⟩
  · rw [hlen]; exact ⟨by norm_num, by norm_num⟩
  · rw [htris]; exact ⟨by norm_num, by norm_num⟩
  · intro i hi
    have hz : i = 0 := List.eq_of_mem_replicate hi
    rw [hz]
    exact Nat.pos_pow_of_pos _ (by norm_num)
